import Mathlib

/-!
Shallow embedding of the polybridge Python client (`src/polybridge/client.py`,
`src/polybridge/types.py`) and proofs about its request-orchestration pipeline.

Modelling conventions:
* Python `str` values are Lean `String`s; Python's default string ordering
  (lexicographic by code point) is modelled by `pyStrLe`.
* Decoded JSON documents are modelled by the inductive `JsonValue`; JSON
  numbers are modelled as integers (no claim depends on float formatting).
* A timezone-aware `datetime` is modelled by its UTC field values
  (`UtcDatetime`); `astimezone(timezone.utc)` is the identity on this
  representation.
* Recursive helpers that model Python library routines (`str.replace`,
  decimal formatting) are fuel-indexed so that every definition is
  structurally recursive and kernel-evaluable; the chosen fuel always
  suffices, as proved where needed.
* Network traffic is modelled by an oracle (`Remote`) giving each endpoint's
  decoded response, and the orchestration functions additionally return the
  list of requests they issued, in issue order.
-/

namespace Polybridge

/-- Lexicographic code-point comparison of character lists; models Python's
default string ordering used by `sorted`. -/
def lexLeChars : List Char → List Char → Bool
  | [], _ => true
  | _ :: _, [] => false
  | a :: as, b :: bs =>
    if a.toNat = b.toNat then lexLeChars as bs else decide (a.toNat < b.toNat)

/-- Model of Python `a <= b` on strings (lexicographic by code point). -/
def pyStrLe (a b : String) : Bool := lexLeChars a.data b.data

/-- Test whether `pat` occurs at the start of `s` (over character lists). -/
def leadsWith : List Char → List Char → Bool
  | [], _ => true
  | _ :: _, [] => false
  | p :: ps, c :: cs => p == c && leadsWith ps cs

/-- Model of Python `pat in s` for strings: substring occurrence test. -/
def hasSubstr (pat : List Char) : List Char → Bool
  | [] => leadsWith pat []
  | c :: cs => leadsWith pat (c :: cs) || hasSubstr pat cs

/-- Fuel-indexed model of Python `str.replace`: replaces all non-overlapping
occurrences of `pat` left to right.  Each step consumes at least one
character of `s`, so fuel `s.length` always suffices.  (The client only ever
replaces the non-empty pattern `"+00:00"`; the empty-pattern behaviour of
Python, which inserts the replacement between characters, is not needed and
the `pat = []` guard makes that case walk the string unchanged.) -/
def strReplaceFuel (pat rep : List Char) : Nat → List Char → List Char
  | _, [] => []
  | 0, s => s
  | fuel + 1, c :: rest =>
    if pat ≠ [] ∧ leadsWith pat (c :: rest) = true then
      rep ++ strReplaceFuel pat rep fuel ((c :: rest).drop pat.length)
    else
      c :: strReplaceFuel pat rep fuel rest

/-- Model of Python `s.replace(pat, rep)`. -/
def pyReplace (s pat rep : String) : String :=
  String.mk (strReplaceFuel pat.data rep.data s.data.length s.data)

/-- Decimal digit character for `d % 10`. -/
def digitChar (d : Nat) : Char := Char.ofNat (48 + d % 10)

/-- Fuel-indexed decimal digit expansion of a natural number (most
significant digit first); fuel `n + 1` always suffices. -/
def natChars : Nat → Nat → List Char
  | 0, _ => []
  | fuel + 1, n =>
    if n < 10 then [digitChar n] else natChars fuel (n / 10) ++ [digitChar (n % 10)]

/-- Model of Python `str(n)` for a non-negative integer. -/
def natRepr (n : Nat) : String := String.mk (natChars (n + 1) n)

/-- Model of Python `str(i)` for an integer. -/
def intRepr : Int → String
  | .ofNat m => natRepr m
  | .negSucc m => "-" ++ natRepr (m + 1)

/-- Model of `%02d` formatting: left-pad the decimal expansion with zeros to
at least two characters. -/
def pad2 (n : Nat) : String := (if n < 10 then "0" else "") ++ natRepr n

/-- Model of `%04d` formatting (ISO year field). -/
def pad4 (n : Nat) : String :=
  (if n < 10 then "000" else if n < 100 then "00" else if n < 1000 then "0" else "") ++
    natRepr n

/-- Model of `%06d` formatting (ISO microsecond field). -/
def pad6 (n : Nat) : String :=
  (if n < 10 then "00000"
   else if n < 100 then "0000"
   else if n < 1000 then "000"
   else if n < 10000 then "00"
   else if n < 100000 then "0"
   else "") ++ natRepr n

/-- A timezone-aware Python `datetime`, represented by its UTC field
values.  `astimezone(timezone.utc)` is the identity on this representation. -/
structure UtcDatetime where
  year : Nat
  month : Nat
  day : Nat
  hour : Nat
  minute : Nat
  second : Nat
  microsecond : Nat
deriving DecidableEq

/-- Model of `datetime.isoformat()` on a UTC-aware value: the date/time
fields, a fractional part exactly when the microsecond field is non-zero,
and the `+00:00` UTC offset suffix. -/
def isoformatUTC (dt : UtcDatetime) : String :=
  pad4 dt.year ++ "-" ++ pad2 dt.month ++ "-" ++ pad2 dt.day ++ "T" ++
    pad2 dt.hour ++ ":" ++ pad2 dt.minute ++ ":" ++ pad2 dt.second ++
    (if dt.microsecond = 0 then "" else "." ++ pad6 dt.microsecond) ++ "+00:00"

/-- Embedding of `PolybridgeClient._to_iso`: convert to UTC, zero the
microseconds, take `isoformat()`, and replace `"+00:00"` with `"Z"`. -/
def _to_iso (dt : UtcDatetime) : String :=
  pyReplace (isoformatUTC { dt with microsecond := 0 }) "+00:00" "Z"

/-- Embedding of `PolybridgeClient._chunk`: the Python generator yields
`sequence[index : index + size]` for `index in range(0, len(sequence), size)`,
that is, slice number `i` starts at offset `i * size` and there are
`ceil(len / size)` slices.  (Python raises `ValueError` for `size = 0`; the
formula's value there, the empty list, is never relied upon: every claim
about `_chunk` assumes `1 ≤ size`.) -/
def _chunk (sequence : List α) (size : Nat) : List (List α) :=
  (List.range ((sequence.length + size - 1) / size)).map
    fun index => (sequence.drop (index * size)).take size

/-- Model of Python `sorted(set(xs))` for strings, as used on market ids. -/
def sortedDedup (xs : List String) : List String :=
  List.insertionSort (fun a b => pyStrLe a b = true) xs.dedup

/-- A decoded JSON document.  JSON numbers are modelled as integers; no
claim depends on floating-point formatting. -/
inductive JsonValue where
  | null
  | bool (b : Bool)
  | num (i : Int)
  | str (s : String)
  | arr (elems : List JsonValue)
  | obj (fields : List (String × JsonValue))

/-- First-match association lookup; models Python dict indexing (decoded
JSON objects have unique keys). -/
def dictGet : List (String × α) → String → Option α
  | [], _ => none
  | (k, v) :: rest, key => if k = key then some v else dictGet rest key

/-- Comma-space separated concatenation, as in Python container `repr`. -/
def joinComma : List String → String
  | [] => ""
  | [s] => s
  | s :: rest => s ++ ", " ++ joinComma rest

/-- Model of Python `repr` on decoded JSON values (string escaping inside
`repr` is not modelled; no claim depends on it). -/
def pyRepr : JsonValue → String
  | .null => "None"
  | .bool true => "True"
  | .bool false => "False"
  | .num i => intRepr i
  | .str s => "\x27" ++ s ++ "\x27"
  | .arr xs => "[" ++ joinComma (xs.attach.map fun v => pyRepr v.1) ++ "]"
  | .obj fs =>
      "\x7b" ++
        joinComma (fs.attach.map fun kv => "\x27" ++ kv.1.1 ++ "\x27: " ++ pyRepr kv.1.2) ++
        "\x7d"
termination_by v => sizeOf v
decreasing_by
  · have h1 := List.sizeOf_lt_of_mem v.2
    simp only [JsonValue.arr.sizeOf_spec]
    omega
  · have h1 := List.sizeOf_lt_of_mem kv.2
    have h2 : sizeOf kv.1.2 < sizeOf kv.1 := by
      obtain ⟨a, b⟩ := kv.1
      simp only [Prod.mk.sizeOf_spec]
      omega
    simp only [JsonValue.obj.sizeOf_spec]
    omega

/-- Model of Python `str` on decoded JSON values: a string is itself, any
other value is its `repr`. -/
def pyStr (v : JsonValue) : String :=
  match v with
  | .str s => s
  | v => pyRepr v

/-- Model of Python `key in data` on a decoded JSON document: key lookup on
a dict, element comparison on a list, substring test on a string, and
`none` (a `TypeError`) on the remaining scalar shapes. -/
def pyContains (data : JsonValue) (key : String) : Option Bool :=
  match data with
  | .obj fs => some (dictGet fs key).isSome
  | .arr xs => some (xs.any fun v => match v with | .str s => s == key | _ => false)
  | .str s => some (hasSubstr key.data s.data)
  | _ => none

/-- An HTTP response as `_post` observes it: the status code, the decoded
JSON body (`none` when `response.json()` raises), and the raw text. -/
structure HttpResponse where
  status : Nat
  body : Option JsonValue
  text : String

/-- The ways `_post` can raise.  `http` is the re-raised
`requests.HTTPError` (modelled by its appended detail string; the
transport's own prefix text is opaque to the client), `api` the
`RuntimeError` raised for an error envelope on a success status,
`jsonDecode` the undecodable-body error from the final `response.json()`,
and `typeError` the `TypeError` Python raises when `"error" in data` or
`data["error"]` is applied to an unsupported shape. -/
inductive PostError where
  | http (detail : String)
  | api (message : String)
  | jsonDecode
  | typeError

/-- Embedding of the `error_detail` extraction at the top of `_post`
(`client.py` lines 96-110): decode the body, inspect its `error` field, and
fall back to the first 500 characters of raw text whenever anything in the
`try` block raises. -/
def errorDetail (r : HttpResponse) : String :=
  match r.body with
  | none => r.text.take 500
  | some data =>
    match pyContains data "error" with
    | none => r.text.take 500
    | some false => ""
    | some true =>
      match data with
      | .obj fs =>
        match dictGet fs "error" with
        | some (.obj efs) =>
            "Code: " ++ (match dictGet efs "code" with | some v => pyStr v | none => "UNKNOWN") ++
              ", Message: " ++
              (match dictGet efs "message" with | some v => pyStr v | none => "No message") ++
              (match dictGet efs "detail" with | some v => ", Detail: " ++ pyStr v | none => "")
        | some v => pyStr v
        | none => ""
      | _ => r.text.take 500

/-- Embedding of the message selection in `_post`'s error-envelope branch:
`error_obj.get("message", str(error_obj))` when the error object is a dict,
else `str(error_obj)`, with the chosen value passed through `str` by the
f-string. -/
def apiErrorMessage (error_obj : JsonValue) : String :=
  match error_obj with
  | .obj efs =>
    match dictGet efs "message" with
    | some v => pyStr v
    | none => pyStr error_obj
  | v => pyStr v

/-- Embedding of `PolybridgeClient._post` after the transport call: compute
`error_detail`, re-raise HTTP-level failures (`raise_for_status` raises for
statuses in `[400, 600)`), decode the body, surface an error envelope as
`api`, and otherwise return the decoded body. -/
def _post (response : HttpResponse) : Except PostError JsonValue :=
  let error_detail := errorDetail response
  if 400 ≤ response.status ∧ response.status < 600 then
    .error (.http (if error_detail = "" then response.text.take 500 else error_detail))
  else
    match response.body with
    | none => .error .jsonDecode
    | some data =>
      match pyContains data "error" with
      | none => .error .typeError
      | some true =>
        match data with
        | .obj fs =>
          match dictGet fs "error" with
          | some error_obj => .error (.api ("API returned error: " ++ apiErrorMessage error_obj))
          | none => .ok data
        | _ => .error .typeError
      | some false => .ok data

/-- Embedding of `HORIZON_INTERVAL_MAP` (`client.py` lines 20-25). -/
def HORIZON_INTERVAL_MAP : List (String × String) :=
  [("daily", "5m"), ("weekly", "30m"), ("monthly", "1h"), ("yearly", "4h")]

/-- A catalog entry as `fetch_timeseries` reads it: `entry.get("horizon")`
and `entry.get("market_id")`, each possibly missing.  Further fields of the
entry are opaque to the pipeline.  (Non-string values in these two fields,
which would make the Python either skip the entry or crash when sorting,
are outside the model.) -/
structure CatalogEntry where
  horizon : Option String := none
  market_id : Option String := none
deriving DecidableEq

/-- Append `value` to the list stored under `key`, inserting the key at the
end on first use; models `defaultdict(list)` update together with Python's
insertion-ordered dict iteration. -/
def appendToKey (groups : List (String × List String)) (key value : String) :
    List (String × List String) :=
  match groups with
  | [] => [(key, [value])]
  | (k, vs) :: rest =>
    if k = key then (k, vs ++ [value]) :: rest else (k, vs) :: appendToKey rest key value

/-- One iteration of the grouping loop in `fetch_timeseries` (lines
274-282): skip entries whose horizon or market id is missing or falsy, look
the horizon up in the static map (whose values are all non-empty, so
Python's `if interval:` succeeds exactly when the lookup does), and collect
the market id under the interval. -/
def groupStep (groups : List (String × List String)) (entry : CatalogEntry) :
    List (String × List String) :=
  match entry.horizon, entry.market_id with
  | some h, some m =>
    if h = "" ∨ m = "" then groups
    else
      match dictGet HORIZON_INTERVAL_MAP h with
      | some interval => appendToKey groups interval m
      | none => groups
  | _, _ => groups

/-- The grouping of catalog entries by sampling interval
(`markets_by_interval` in `fetch_timeseries`). -/
def groupMarkets (catalog : List CatalogEntry) : List (String × List String) :=
  catalog.foldl groupStep []

/-- The body of an `api_v1_market_catalog` request; `none` fields are
absent from the JSON payload. -/
structure CatalogPayload where
  assets : Option (List String)
  horizons : Option (List String)
  market_types : Option (List String)
  start_ts : Option String
  end_ts : Option String
deriving DecidableEq

/-- Keep an optional list argument only when Python considers it truthy
(present and non-empty). -/
def keepTruthyList : Option (List String) → Option (List String)
  | some (x :: xs) => some (x :: xs)
  | _ => none

/-- Keep an optional string argument only when Python considers it truthy
(present and non-empty). -/
def keepTruthyStr : Option String → Option String
  | some s => if s = "" then none else some s
  | none => none

/-- Embedding of `fetch_market_catalog`'s payload construction (lines
189-199): each field is included exactly when the argument is truthy. -/
def fetch_market_catalog_payload (assets horizons market_types : Option (List String))
    (start_ts end_ts : Option String) : CatalogPayload :=
  ⟨keepTruthyList assets, keepTruthyList horizons, keepTruthyList market_types,
    keepTruthyStr start_ts, keepTruthyStr end_ts⟩

/-- The nested `prices` options of an `api_v1_merged` request. -/
structure PricesOpts where
  instrument_type : String
  include_open_interest : Bool
deriving DecidableEq

/-- The body of an `api_v1_merged` request. -/
structure MergedPayload where
  markets : List String
  interval : String
  start_ts : String
  end_ts : String
  blocks : List String
  prices : Option PricesOpts
deriving DecidableEq

/-- One named block of an `api_v1_merged` response: column names and rows.
The row type is a parameter; the client treats rows as opaque values.  A
block missing its `columns` or `rows` key is identified with one carrying
an empty list, matching the `.get(key, [])` reads in the client. -/
structure BlockData (α : Type) where
  columns : List String
  rows : List α
deriving DecidableEq

/-- A decoded `api_v1_merged` response (equally, the accumulator of
`_merge_responses`): the three known blocks, the optional `meta` object,
and any further keys (`extra`), which the merge logic never touches but
which count towards Python's emptiness test on the dict. -/
structure MergedResponse (α : Type) where
  probabilities : Option (BlockData α) := none
  prices : Option (BlockData α) := none
  options_metrics : Option (BlockData α) := none
  meta : Option JsonValue := none
  extra : List (String × JsonValue) := []

/-- The empty dict `{}` that the chunk loop starts from. -/
def emptyResponse : MergedResponse α := ⟨none, none, none, none, []⟩

/-- Python's `not destination` test on the response dict. -/
def isEmptyResponse (r : MergedResponse α) : Bool :=
  r.probabilities.isNone && r.prices.isNone && r.options_metrics.isNone &&
    r.meta.isNone && r.extra.isEmpty

/-- Merge one block: absent in source, keep destination; absent in
destination, adopt source's columns and a copy of its rows; present in
both, extend destination's rows with source's (columns untouched). -/
def mergeBlock (dst src : Option (BlockData α)) : Option (BlockData α) :=
  match src with
  | none => dst
  | some sb =>
    match dst with
    | none => some ⟨sb.columns, sb.rows⟩
    | some db => some ⟨db.columns, db.rows ++ sb.rows⟩

/-- Embedding of `PolybridgeClient._merge_responses` (lines 426-449): an
empty destination adopts the source wholesale (shared reference in Python);
otherwise each known block of the source is merged in and `meta` is taken
from the source only when the destination lacks it. -/
def _merge_responses (destination source : MergedResponse α) : MergedResponse α :=
  if isEmptyResponse destination then source
  else
    { destination with
      probabilities := mergeBlock destination.probabilities source.probabilities
      prices := mergeBlock destination.prices source.prices
      options_metrics := mergeBlock destination.options_metrics source.options_metrics
      meta := match destination.meta with
        | some m => some m
        | none => source.meta }

/-- One iteration of the `_response_to_frames` loop: when the block is
present in the response (and, in Python, is a dict — always true in this
typed model), emit one frame under the block's name; a data frame is
modelled by its row list, so `pd.DataFrame(rows) if rows else
pd.DataFrame()` is the row list either way. -/
def optFrame (name : String) : Option (BlockData α) → List (String × List α)
  | some b => [(name, b.rows)]
  | none => []

/-- Embedding of `PolybridgeClient._response_to_frames` (lines 451-459): a
frame for each known block present in the response, in the fixed block
order of the source. -/
def _response_to_frames (response : MergedResponse α) : List (String × List α) :=
  optFrame "probabilities" response.probabilities ++
    optFrame "prices" response.prices ++
    optFrame "options_metrics" response.options_metrics

/-- Python dict assignment `d[k] = v`: overwrite in place if the key
exists, append otherwise. -/
def dictInsert (d : List (String × β)) (k : String) (v : β) : List (String × β) :=
  match d with
  | [] => [(k, v)]
  | (k', v') :: rest =>
    if k' = k then (k, v) :: rest else (k', v') :: dictInsert rest k v

/-- The arguments of a `fetch_timeseries` call.  String-to-datetime
resolution (`_ensure_datetime` over the optional `start_ts`/`end_ts` and
`hours`) is modelled by the resolved instants `start_dt`/`end_dt` together
with the truthiness `start_given`/`end_given` of the raw arguments, which
is all the pipeline observes of it.  A negative Python `chunk_size`, which
would silently produce no chunks, is outside the `Nat` model. -/
structure FetchParams where
  asset : String
  horizons : List String
  market_types : Option (List String) := none
  start_given : Bool := false
  end_given : Bool := false
  start_dt : UtcDatetime
  end_dt : UtcDatetime
  include_prices : Bool := true
  include_open_interest : Bool := true
  include_options_metrics : Bool := false
  prices_instrument : String := "spot"
  chunk_size : Nat := 10
  include_probabilities : Bool := true

/-- A decoded `api_v1_market_catalog` response: the `markets` list, absent
when the service omits the key (`response.get("markets", [])`). -/
structure CatalogResponse where
  markets : Option (List CatalogEntry)
deriving DecidableEq

/-- One request issued by the pipeline, as recorded in the trace. -/
inductive ApiRequest where
  | catalog (payload : CatalogPayload)
  | merged (payload : MergedPayload)
deriving DecidableEq

/-- The remote service, as an oracle mapping each request body to the
decoded response (or the error `_post` raises for it). -/
structure Remote (α : Type) where
  catalogResp : CatalogPayload → Except PostError CatalogResponse
  mergedResp : MergedPayload → Except PostError (MergedResponse α)

/-- Embedding of `TimeseriesResult` (`types.py`): catalog entries, raw
merged responses keyed by interval, and data frames keyed by table key. -/
structure TimeseriesResultM (α : Type) where
  catalog : List CatalogEntry
  responses : List (String × MergedResponse α)
  dataframes : List (String × List α)

/-- The exceptions `fetch_timeseries` can raise: its own `ValueError` for
an empty horizons list, or anything propagated from `_post`. -/
inductive FetchError where
  | validation (message : String)
  | post (e : PostError)

/-- The observable outcome of a `fetch_timeseries` call: its return value
or raised error, and the requests issued, in issue order. -/
structure FetchOutcome (α : Type) where
  result : Except FetchError (TimeseriesResultM α)
  trace : List ApiRequest

/-- The catalog request body issued by `fetch_timeseries` (lines 263-268):
the single asset, the horizons, the optional market types, and ISO
timestamps exactly when the corresponding raw argument was truthy. -/
def buildCatalogPayload (p : FetchParams) : CatalogPayload :=
  fetch_market_catalog_payload (some [p.asset]) (some p.horizons) p.market_types
    (if p.start_given then some (_to_iso p.start_dt) else none)
    (if p.end_given then some (_to_iso p.end_dt) else none)

/-- The `api_v1_merged` request body for one chunk (lines 294-314): the
chunk's markets, the interval, both ISO timestamps, the `blocks` list built
from the three include flags in order (with `options_metrics` additionally
gated on `interval == "1d"`), and the nested prices options exactly when
prices are requested. -/
def buildMergedPayload (p : FetchParams) (interval : String) (chunk : List String) :
    MergedPayload :=
  { markets := chunk
    interval := interval
    start_ts := _to_iso p.start_dt
    end_ts := _to_iso p.end_dt
    blocks :=
      (if p.include_probabilities then ["probabilities"] else []) ++
      (if p.include_prices then ["prices"] else []) ++
      (if p.include_options_metrics && interval == "1d" then ["options_metrics"] else [])
    prices :=
      if p.include_prices then some ⟨p.prices_instrument, p.include_open_interest⟩
      else none }

/-- The chunk loop of one interval (lines 294-317): issue one merged
request per chunk, in chunk order, folding each decoded response into the
accumulator; a raised error aborts with the requests issued so far. -/
def runChunks (remote : Remote α) (p : FetchParams) (interval : String)
    (chunks : List (List String)) (aggregated : MergedResponse α) :
    Except PostError (MergedResponse α) × List ApiRequest :=
  match chunks with
  | [] => (.ok aggregated, [])
  | c :: rest =>
    let payload := buildMergedPayload p interval c
    match remote.mergedResp payload with
    | .error e => (.error e, [.merged payload])
    | .ok resp =>
      let r := runChunks remote p interval rest (_merge_responses aggregated resp)
      (r.1, .merged payload :: r.2)

/-- The interval loop of `fetch_timeseries` (lines 287-323): for each
interval of the grouping, sort and deduplicate its market ids, skip the
interval if none remain, run the chunk loop, record the aggregated
response, and insert one data frame per block under the block name —
suffixed with the interval when the full grouping has more than one entry
(`nGroups` is `len(markets_by_interval)`, computed on the whole
grouping). -/
def runIntervals (remote : Remote α) (p : FetchParams) (nGroups : Nat)
    (groups : List (String × List String))
    (responses : List (String × MergedResponse α))
    (dataframes : List (String × List α)) :
    Except PostError
        (List (String × MergedResponse α) × List (String × List α)) ×
      List ApiRequest :=
  match groups with
  | [] => (.ok (responses, dataframes), [])
  | (interval, ids) :: rest =>
    let unique_ids := sortedDedup ids
    if unique_ids.isEmpty then runIntervals remote p nGroups rest responses dataframes
    else
      let r := runChunks remote p interval (_chunk unique_ids p.chunk_size) emptyResponse
      match r.1 with
      | .error e => (.error e, r.2)
      | .ok aggregated =>
        let responses' := dictInsert responses interval aggregated
        let dataframes' :=
          (_response_to_frames aggregated).foldl
            (fun acc bf =>
              dictInsert acc (if nGroups == 1 then bf.1 else bf.1 ++ "_" ++ interval) bf.2)
            dataframes
        let rest_r := runIntervals remote p nGroups rest responses' dataframes'
        (rest_r.1, r.2 ++ rest_r.2)

/-- Embedding of `PolybridgeClient.fetch_timeseries` (lines 202-329):
validate the horizons, issue the catalog request, short-circuit to an empty
result when no markets match, group the catalog by interval, and run the
interval loop. -/
def fetchTimeseries (remote : Remote α) (p : FetchParams) : FetchOutcome α :=
  if p.horizons.isEmpty then
    ⟨.error (.validation "At least one horizon must be provided"), []⟩
  else
    let cp := buildCatalogPayload p
    match remote.catalogResp cp with
    | .error e => ⟨.error (.post e), [.catalog cp]⟩
    | .ok cr =>
      let catalog := cr.markets.getD []
      if catalog.isEmpty then ⟨.ok ⟨[], [], []⟩, [.catalog cp]⟩
      else
        let groups := groupMarkets catalog
        let r := runIntervals remote p groups.length groups [] []
        match r.1 with
        | .error e => ⟨.error (.post e), .catalog cp :: r.2⟩
        | .ok rd => ⟨.ok ⟨catalog, rd.1, rd.2⟩, .catalog cp :: r.2⟩

/-- The `api_v1_merged` request bodies of a trace, in issue order. -/
def mergedPayloads (trace : List ApiRequest) : List MergedPayload :=
  trace.filterMap fun r =>
    match r with
    | .merged payload => some payload
    | .catalog _ => none

/-- The date-and-time portion of the wire timestamp format the spec
describes: ISO-8601 UTC at second precision.  Stated here for comparison
with what `_to_iso` actually produces. -/
def isoSeconds (dt : UtcDatetime) : String :=
  pad4 dt.year ++ "-" ++ pad2 dt.month ++ "-" ++ pad2 dt.day ++ "T" ++
    pad2 dt.hour ++ ":" ++ pad2 dt.minute ++ ":" ++ pad2 dt.second

/-- The per-group list of `api_v1_merged` request bodies the interval loop
issues for one grouping entry (used to state trace-shape lemmas). -/
def payloadList (p : FetchParams) (g : String × List String) : List MergedPayload :=
  if (sortedDedup g.2).isEmpty then []
  else (_chunk (sortedDedup g.2) p.chunk_size).map (buildMergedPayload p g.1)

/-- A small concrete oracle used to evaluate the pipeline on closed inputs:
the catalog holds two daily markets and every bulk request answers with a
one-row probabilities block. -/
def sampleRemote : Remote Nat :=
  { catalogResp := fun _ =>
      .ok ⟨some [⟨some "daily", some "m1"⟩, ⟨some "daily", some "m2"⟩]⟩
    mergedResp := fun _ => .ok ⟨some ⟨["t"], [0]⟩, none, none, none, []⟩ }

/-- Concrete `fetch_timeseries` arguments used with `sampleRemote`. -/
def sampleParams : FetchParams :=
  { asset := "BTC"
    horizons := ["daily"]
    start_dt := ⟨2024, 1, 1, 6, 0, 0, 0⟩
    end_dt := ⟨2024, 1, 1, 12, 0, 0, 0⟩
    include_options_metrics := true
    chunk_size := 1 }

/-- An oracle whose catalog lookup matches no markets. -/
def emptyCatalogRemote : Remote Nat :=
  { catalogResp := fun _ => .ok ⟨some []⟩
    mergedResp := fun _ => .error .jsonDecode }

theorem lexLeChars_trans : ∀ xs ys zs : List Char,
    lexLeChars xs ys = true → lexLeChars ys zs = true → lexLeChars xs zs = true := by
  intro xs
  induction xs with
  | nil => intro ys zs h1 h2; simp [lexLeChars]
  | cons a as ih =>
    intro ys zs h1 h2
    cases ys with
    | nil => simp [lexLeChars] at h1
    | cons b bs =>
      cases zs with
      | nil => simp [lexLeChars] at h2
      | cons c cs =>
        rw [show lexLeChars (a :: as) (b :: bs) =
            (if a.toNat = b.toNat then lexLeChars as bs else decide (a.toNat < b.toNat))
          from rfl] at h1
        rw [show lexLeChars (b :: bs) (c :: cs) =
            (if b.toNat = c.toNat then lexLeChars bs cs else decide (b.toNat < c.toNat))
          from rfl] at h2
        rw [show lexLeChars (a :: as) (c :: cs) =
            (if a.toNat = c.toNat then lexLeChars as cs else decide (a.toNat < c.toNat))
          from rfl]
        split_ifs at h1 h2 ⊢ with hab hbc hac
        all_goals try simp only [decide_eq_true_eq] at h1 h2 ⊢
        all_goals
          first
            | exact ih bs cs h1 h2
            | omega

theorem lexLeChars_total : ∀ xs ys : List Char,
    lexLeChars xs ys = true ∨ lexLeChars ys xs = true := by
  intro xs
  induction xs with
  | nil => intro ys; left; simp [lexLeChars]
  | cons a as ih =>
    intro ys
    cases ys with
    | nil => right; simp [lexLeChars]
    | cons b bs =>
      by_cases hab : a.toNat = b.toNat
      · have e1 : lexLeChars (a :: as) (b :: bs) = lexLeChars as bs := by
          simp [lexLeChars, hab]
        have e2 : lexLeChars (b :: bs) (a :: as) = lexLeChars bs as := by
          simp [lexLeChars, hab]
        rw [e1, e2]
        exact ih bs
      · have hba : ¬ b.toNat = a.toNat := fun h => hab h.symm
        simp only [lexLeChars, hab, hba, if_false, ite_false, decide_eq_true_eq]
        omega

instance : IsTrans String fun a b => pyStrLe a b = true :=
  ⟨fun a b c h1 h2 => lexLeChars_trans a.data b.data c.data h1 h2⟩

instance : IsTotal String fun a b => pyStrLe a b = true :=
  ⟨fun a b => lexLeChars_total a.data b.data⟩

theorem sortedDedup_sorted (xs : List String) :
    (sortedDedup xs).Pairwise fun a b => pyStrLe a b = true :=
  List.sorted_insertionSort _ _

theorem sortedDedup_nodup (xs : List String) : (sortedDedup xs).Nodup :=
  ((List.perm_insertionSort _ xs.dedup).nodup_iff).mpr xs.nodup_dedup

theorem sortedDedup_eq_nil_iff (xs : List String) : sortedDedup xs = [] ↔ xs = [] := by
  unfold sortedDedup
  rw [List.eq_nil_iff_forall_not_mem, List.eq_nil_iff_forall_not_mem]
  constructor
  · intro h x hx
    exact h x (((List.perm_insertionSort _ xs.dedup).mem_iff).mpr (List.mem_dedup.mpr hx))
  · intro h x hx
    exact h x (List.mem_dedup.mp (((List.perm_insertionSort _ xs.dedup).mem_iff).mp hx))

theorem chunk_nil (size : Nat) : _chunk ([] : List α) size = [] := by
  have h : (size - 1) / size = 0 := by
    cases size with
    | zero => simp
    | succ s => exact Nat.div_eq_of_lt (by omega)
  simp [_chunk, h]

theorem chunk_cons (size : Nat) (hsz : 1 ≤ size) (l : List α) (hl : l ≠ []) :
    _chunk l size = l.take size :: _chunk (l.drop size) size := by
  have hlen : 1 ≤ l.length := List.length_pos.mpr hl
  have hcount :
      (l.length + size - 1) / size = ((l.drop size).length + size - 1) / size + 1 := by
    rw [List.length_drop]
    rcases Nat.le_total size l.length with h | h
    · have e1 : l.length + size - 1 = (l.length - size + size - 1) + size := by omega
      rw [e1, Nat.add_div_right _ (by omega)]
    · have e2 : l.length - size = 0 := by omega
      have e3 : (0 + size - 1) / size = 0 := Nat.div_eq_of_lt (by omega)
      have e4 : (l.length + size - 1) / size = 1 := by
        have h1 : l.length + size - 1 = (l.length - 1) + size := by omega
        rw [h1, Nat.add_div_right _ (by omega), Nat.div_eq_of_lt (by omega)]
      rw [e2, e3, e4]
  simp only [_chunk, hcount, List.range_succ_eq_map, List.map_cons, List.map_map]
  congr 1
  · simp
  · apply List.map_congr_left
    intro i _
    simp only [Function.comp_apply, List.drop_drop]
    congr 2
    rw [Nat.succ_mul]
    ring

theorem chunk_join_aux (size : Nat) (hsz : 1 ≤ size) :
    ∀ (n : Nat) (l : List α), l.length ≤ n → (_chunk l size).flatten = l := by
  intro n
  induction n with
  | zero =>
    intro l hl
    have : l = [] := List.eq_nil_of_length_eq_zero (by omega)
    subst this
    rw [chunk_nil]
    rfl
  | succ n ih =>
    intro l hl
    by_cases hnil : l = []
    · subst hnil; rw [chunk_nil]; rfl
    · rw [chunk_cons size hsz l hnil, List.flatten_cons,
        ih (l.drop size) (by rw [List.length_drop]; omega)]
      exact List.take_append_drop size l

theorem chunk_join (size : Nat) (hsz : 1 ≤ size) (l : List α) :
    (_chunk l size).flatten = l :=
  chunk_join_aux size hsz l.length l le_rfl

theorem chunk_mem_shape (size : Nat) (hsz : 1 ≤ size) (l : List α) (c : List α)
    (h : c ∈ _chunk l size) :
    ∃ i, i * size < l.length ∧ c = (l.drop (i * size)).take size := by
  simp only [_chunk, List.mem_map, List.mem_range] at h
  obtain ⟨i, hi, rfl⟩ := h
  refine ⟨i, ?_, rfl⟩
  have h1 : (i + 1) * size ≤ ((l.length + size - 1) / size) * size :=
    Nat.mul_le_mul_right size hi
  have h2 : ((l.length + size - 1) / size) * size ≤ l.length + size - 1 :=
    Nat.div_mul_le_self _ _
  have h3 : i * size + size ≤ l.length + size - 1 := by
    calc i * size + size = (i + 1) * size := by ring
      _ ≤ l.length + size - 1 := le_trans h1 h2
  generalize i * size = t at *
  omega

theorem chunk_mem_ne_nil (size : Nat) (hsz : 1 ≤ size) (l : List α) (c : List α)
    (h : c ∈ _chunk l size) : c ≠ [] := by
  obtain ⟨i, hi, rfl⟩ := chunk_mem_shape size hsz l c h
  intro hc
  rw [List.take_eq_nil_iff] at hc
  rcases hc with hc | hc
  · omega
  · have := congrArg List.length hc
    rw [List.length_drop] at this
    simp at this
    omega

theorem chunk_mem_length (size : Nat) (hsz : 1 ≤ size) (l : List α) (c : List α)
    (h : c ∈ _chunk l size) : c.length ≤ size := by
  obtain ⟨i, _, rfl⟩ := chunk_mem_shape size hsz l c h
  rw [List.length_take]
  omega

theorem chunk_mem_sublist (size : Nat) (hsz : 1 ≤ size) (l : List α) (c : List α)
    (h : c ∈ _chunk l size) : List.Sublist c l := by
  obtain ⟨i, _, rfl⟩ := chunk_mem_shape size hsz l c h
  exact (List.take_sublist _ _).trans (List.drop_sublist _ _)

theorem chunk_single (size : Nat) (l : List α) (hl : l ≠ []) (hlen : l.length ≤ size) :
    _chunk l size = [l] := by
  have hlen1 : 1 ≤ l.length := List.length_pos.mpr hl
  rw [chunk_cons size (by omega) l hl, List.take_of_length_le hlen,
    List.drop_eq_nil_of_le hlen, chunk_nil]

theorem appendToKey_fst_mem :
    ∀ (groups : List (String × List String)) (key value : String),
      ∀ q ∈ appendToKey groups key value, q.1 = key ∨ q ∈ groups := by
  intro groups
  induction groups with
  | nil =>
    intro key value q hq
    simp only [appendToKey, List.mem_singleton] at hq
    left
    rw [hq]
  | cons g rest ih =>
    intro key value q hq
    obtain ⟨k, vs⟩ := g
    simp only [appendToKey] at hq
    by_cases hk : k = key
    · rw [if_pos hk] at hq
      rcases List.mem_cons.mp hq with h | h
      · left; rw [h, hk]
      · right
        exact List.mem_cons_of_mem _ h
    · rw [if_neg hk] at hq
      rcases List.mem_cons.mp hq with h | h
      · right; rw [h]; exact List.mem_cons_self _ _
      · rcases ih key value q h with h' | h'
        · left; exact h'
        · right
          exact List.mem_cons_of_mem _ h'

theorem appendToKey_keys_mem (groups : List (String × List String)) (key value x : String)
    (hx : x ∈ (appendToKey groups key value).map Prod.fst) :
    x = key ∨ x ∈ groups.map Prod.fst := by
  rcases List.mem_map.mp hx with ⟨q, hq, rfl⟩
  rcases appendToKey_fst_mem groups key value q hq with h | h
  · left; exact h
  · right; exact List.mem_map_of_mem Prod.fst h

theorem appendToKey_keys_nodup :
    ∀ (groups : List (String × List String)) (key value : String),
      ((groups.map Prod.fst).Nodup) →
      (((appendToKey groups key value).map Prod.fst).Nodup) := by
  intro groups
  induction groups with
  | nil => intro key value _; simp [appendToKey]
  | cons g rest ih =>
    intro key value h
    obtain ⟨k, vs⟩ := g
    simp only [List.map_cons, List.nodup_cons] at h
    by_cases hk : k = key
    · simp only [appendToKey, if_pos hk, List.map_cons, List.nodup_cons]
      exact h
    · simp only [appendToKey, if_neg hk, List.map_cons, List.nodup_cons]
      refine ⟨?_, ih key value h.2⟩
      intro hmem
      rcases appendToKey_keys_mem rest key value k hmem with h' | h'
      · exact hk h'
      · exact h.1 h'

theorem dictGet_HIM_mem (h i : String) (hh : dictGet HORIZON_INTERVAL_MAP h = some i) :
    i ∈ HORIZON_INTERVAL_MAP.map Prod.snd := by
  simp only [HORIZON_INTERVAL_MAP, dictGet] at hh
  split_ifs at hh <;> (injection hh with hh; subst hh; decide)

theorem foldl_groupStep_inv (P : String → Prop)
    (hP : ∀ h i, dictGet HORIZON_INTERVAL_MAP h = some i → P i) :
    ∀ (catalog : List CatalogEntry) (acc : List (String × List String)),
      (∀ q ∈ acc, P q.1) → ∀ q ∈ catalog.foldl groupStep acc, P q.1 := by
  intro catalog
  induction catalog with
  | nil => intro acc hacc q hq; exact hacc q hq
  | cons e rest ih =>
    intro acc hacc q hq
    simp only [List.foldl_cons] at hq
    refine ih (groupStep acc e) ?_ q hq
    intro q' hq'
    unfold groupStep at hq'
    obtain ⟨ho, mi⟩ := e
    rcases ho with _ | h0
    · exact hacc q' hq'
    · rcases mi with _ | m0
      · exact hacc q' hq'
      · simp only at hq'
        split_ifs at hq' with hemp
        · exact hacc q' hq'
        · rcases hget : dictGet HORIZON_INTERVAL_MAP h0 with _ | iv
          · rw [hget] at hq'
            exact hacc q' hq'
          · rw [hget] at hq'
            rcases appendToKey_fst_mem acc iv m0 q' hq' with h' | h'
            · rw [h']
              exact hP h0 iv hget
            · exact hacc q' h'

theorem foldl_groupStep_keys_nodup :
    ∀ (catalog : List CatalogEntry) (acc : List (String × List String)),
      ((acc.map Prod.fst).Nodup) →
      (((catalog.foldl groupStep acc).map Prod.fst).Nodup) := by
  intro catalog
  induction catalog with
  | nil => intro acc h; exact h
  | cons e rest ih =>
    intro acc h
    simp only [List.foldl_cons]
    refine ih (groupStep acc e) ?_
    unfold groupStep
    obtain ⟨ho, mi⟩ := e
    rcases ho with _ | h0
    · exact h
    · rcases mi with _ | m0
      · exact h
      · simp only
        split_ifs with hemp
        · exact h
        · rcases hget : dictGet HORIZON_INTERVAL_MAP h0 with _ | iv
          · exact h
          · exact appendToKey_keys_nodup acc iv m0 h

theorem groupMarkets_keys_mem (catalog : List CatalogEntry) :
    ∀ q ∈ groupMarkets catalog, q.1 ∈ HORIZON_INTERVAL_MAP.map Prod.snd := by
  refine foldl_groupStep_inv _ (fun h i hh => dictGet_HIM_mem h i hh) catalog [] ?_
  intro q hq
  exact absurd hq (List.not_mem_nil q)

theorem groupMarkets_keys_nodup (catalog : List CatalogEntry) :
    (((groupMarkets catalog).map Prod.fst).Nodup) :=
  foldl_groupStep_keys_nodup catalog [] (by simp)

theorem dictInsert_keys_mem (d : List (String × β)) (k : String) (v : β) (x : String)
    (hx : x ∈ (dictInsert d k v).map Prod.fst) : x = k ∨ x ∈ d.map Prod.fst := by
  induction d with
  | nil =>
    simp only [dictInsert, List.map_cons, List.map_nil, List.mem_singleton] at hx
    left
    exact hx
  | cons g rest ih =>
    obtain ⟨k', v'⟩ := g
    simp only [dictInsert] at hx
    by_cases hk : k' = k
    · rw [if_pos hk] at hx
      simp only [List.map_cons, List.mem_cons] at hx ⊢
      rcases hx with h | h
      · left; exact h
      · right; right; exact h
    · rw [if_neg hk] at hx
      simp only [List.map_cons, List.mem_cons] at hx ⊢
      rcases hx with h | h
      · right; left; exact h
      · rcases ih h with h' | h'
        · left; exact h'
        · right; right; exact h'

theorem foldl_dictInsert_keys (P : String → Prop) (f : String → String) :
    ∀ (frames : List (String × List α)) (d : List (String × List α)),
      (∀ x ∈ d.map Prod.fst, P x) →
      (∀ bf ∈ frames, P (f bf.1)) →
      ∀ x ∈ (frames.foldl (fun acc bf => dictInsert acc (f bf.1) bf.2) d).map Prod.fst, P x := by
  intro frames
  induction frames with
  | nil => intro d hd _ x hx; exact hd x hx
  | cons bf rest ih =>
    intro d hd hf x hx
    simp only [List.foldl_cons] at hx
    refine ih (dictInsert d (f bf.1) bf.2) ?_ (fun b hb => hf b (List.mem_cons_of_mem _ hb)) x hx
    intro y hy
    rcases dictInsert_keys_mem d (f bf.1) bf.2 y hy with h | h
    · rw [h]; exact hf bf (List.mem_cons_self _ _)
    · exact hd y h

theorem optFrame_mem (name : String) (o : Option (BlockData α)) :
    ∀ bf ∈ optFrame name o, bf.1 = name := by
  intro bf hbf
  cases o with
  | none => simp [optFrame] at hbf
  | some b =>
    simp only [optFrame, List.mem_singleton] at hbf
    rw [hbf]

theorem response_to_frames_keys (resp : MergedResponse α) :
    ∀ bf ∈ _response_to_frames resp,
      bf.1 ∈ (["probabilities", "prices", "options_metrics"] : List String) := by
  intro bf hbf
  unfold _response_to_frames at hbf
  rcases List.mem_append.mp hbf with h | h
  · rcases List.mem_append.mp h with h' | h'
    · rw [optFrame_mem _ _ bf h']; decide
    · rw [optFrame_mem _ _ bf h']; decide
  · rw [optFrame_mem _ _ bf h]; decide

theorem runChunks_trace_mem (remote : Remote α) (p : FetchParams) (interval : String) :
    ∀ (chunks : List (List String)) (agg : MergedResponse α) (req : ApiRequest),
      req ∈ (runChunks remote p interval chunks agg).2 →
      ∃ c ∈ chunks, req = .merged (buildMergedPayload p interval c) := by
  intro chunks
  induction chunks with
  | nil => intro agg req h; simp [runChunks] at h
  | cons c rest ih =>
    intro agg req h
    simp only [runChunks] at h
    cases hr : remote.mergedResp (buildMergedPayload p interval c) with
    | error e =>
      rw [hr] at h
      simp only [List.mem_singleton] at h
      exact ⟨c, List.mem_cons_self _ _, h⟩
    | ok resp =>
      rw [hr] at h
      simp only [List.mem_cons] at h
      rcases h with h | h
      · exact ⟨c, List.mem_cons_self _ _, h⟩
      · obtain ⟨c', hc', hreq⟩ := ih (_merge_responses agg resp) req h
        exact ⟨c', List.mem_cons_of_mem _ hc', hreq⟩

theorem runChunks_ok_trace (remote : Remote α) (p : FetchParams) (interval : String) :
    ∀ (chunks : List (List String)) (agg out : MergedResponse α),
      (runChunks remote p interval chunks agg).1 = .ok out →
      (runChunks remote p interval chunks agg).2 =
        chunks.map fun c => ApiRequest.merged (buildMergedPayload p interval c) := by
  intro chunks
  induction chunks with
  | nil => intro agg out _; simp [runChunks]
  | cons c rest ih =>
    intro agg out h
    simp only [runChunks] at h ⊢
    cases hr : remote.mergedResp (buildMergedPayload p interval c) with
    | error e =>
      rw [hr] at h
      simp at h
    | ok resp =>
      rw [hr] at h
      simp only at h ⊢
      simp only [List.map_cons, List.cons.injEq, true_and]
      exact ih (_merge_responses agg resp) out h

theorem runIntervals_trace_mem (remote : Remote α) (p : FetchParams) (nGroups : Nat) :
    ∀ (groups : List (String × List String)) (responses : List (String × MergedResponse α))
      (dataframes : List (String × List α)) (req : ApiRequest),
      req ∈ (runIntervals remote p nGroups groups responses dataframes).2 →
      ∃ g ∈ groups, ∃ c ∈ _chunk (sortedDedup g.2) p.chunk_size,
        req = .merged (buildMergedPayload p g.1 c) := by
  intro groups
  induction groups with
  | nil => intro resp df req h; simp [runIntervals] at h
  | cons g rest ih =>
    intro resp df req h
    obtain ⟨interval, ids⟩ := g
    simp only [runIntervals] at h
    by_cases hemp : (sortedDedup ids).isEmpty = true
    · rw [if_pos hemp] at h
      obtain ⟨g', hg', c, hc, hreq⟩ := ih resp df req h
      exact ⟨g', List.mem_cons_of_mem _ hg', c, hc, hreq⟩
    · rw [if_neg hemp] at h
      cases hr :
          (runChunks remote p interval (_chunk (sortedDedup ids) p.chunk_size)
            emptyResponse).1 with
      | error e =>
        rw [hr] at h
        simp only at h
        obtain ⟨c, hc, hreq⟩ := runChunks_trace_mem remote p interval _ _ req h
        exact ⟨(interval, ids), List.mem_cons_self _ _, c, hc, hreq⟩
      | ok agg =>
        rw [hr] at h
        simp only [List.mem_append] at h
        rcases h with h | h
        · obtain ⟨c, hc, hreq⟩ := runChunks_trace_mem remote p interval _ _ req h
          exact ⟨(interval, ids), List.mem_cons_self _ _, c, hc, hreq⟩
        · obtain ⟨g', hg', c, hc, hreq⟩ := ih _ _ req h
          exact ⟨g', List.mem_cons_of_mem _ hg', c, hc, hreq⟩

theorem runIntervals_ok_trace (remote : Remote α) (p : FetchParams) (nGroups : Nat) :
    ∀ (groups : List (String × List String)) (responses : List (String × MergedResponse α))
      (dataframes : List (String × List α)) out,
      (runIntervals remote p nGroups groups responses dataframes).1 = .ok out →
      (runIntervals remote p nGroups groups responses dataframes).2 =
        (groups.map fun g => (payloadList p g).map ApiRequest.merged).flatten := by
  intro groups
  induction groups with
  | nil => intro resp df out _; simp [runIntervals]
  | cons g rest ih =>
    intro resp df out h
    obtain ⟨interval, ids⟩ := g
    simp only [runIntervals] at h ⊢
    by_cases hemp : (sortedDedup ids).isEmpty = true
    · rw [if_pos hemp] at h ⊢
      rw [ih resp df out h]
      have hnil : sortedDedup ids = [] := List.isEmpty_iff.mp hemp
      simp [payloadList, hnil, chunk_nil]
    · rw [if_neg hemp] at h ⊢
      cases hr :
          (runChunks remote p interval (_chunk (sortedDedup ids) p.chunk_size)
            emptyResponse).1 with
      | error e =>
        rw [hr] at h
        simp at h
      | ok agg =>
        rw [hr] at h
        simp only at h ⊢
        rw [runChunks_ok_trace remote p interval _ _ agg hr, ih _ _ out h]
        have hnil : ¬ sortedDedup ids = [] := fun hh => hemp (List.isEmpty_iff.mpr hh)
        simp [List.map_cons, List.flatten_cons, payloadList, hemp, hnil, List.map_map]

theorem runIntervals_keys (remote : Remote α) (p : FetchParams) (nGroups : Nat)
    (P : String → Prop) :
    ∀ (groups : List (String × List String)) (responses : List (String × MergedResponse α))
      (dataframes : List (String × List α)) out,
      (runIntervals remote p nGroups groups responses dataframes).1 = .ok out →
      (∀ x ∈ dataframes.map Prod.fst, P x) →
      (∀ g ∈ groups, ∀ b ∈ (["probabilities", "prices", "options_metrics"] : List String),
        P (if nGroups == 1 then b else b ++ "_" ++ g.1)) →
      ∀ x ∈ out.2.map Prod.fst, P x := by
  intro groups
  induction groups with
  | nil =>
    intro resp df out h hdf _ x hx
    simp only [runIntervals, Except.ok.injEq] at h
    rw [← h] at hx
    exact hdf x hx
  | cons g rest ih =>
    intro resp df out h hdf hnew x hx
    obtain ⟨interval, ids⟩ := g
    simp only [runIntervals] at h
    by_cases hemp : (sortedDedup ids).isEmpty = true
    · rw [if_pos hemp] at h
      exact ih resp df out h hdf
        (fun g' hg' => hnew g' (List.mem_cons_of_mem _ hg')) x hx
    · rw [if_neg hemp] at h
      cases hr :
          (runChunks remote p interval (_chunk (sortedDedup ids) p.chunk_size)
            emptyResponse).1 with
      | error e =>
        rw [hr] at h
        simp at h
      | ok agg =>
        rw [hr] at h
        simp only at h
        refine ih _ _ out h ?_
          (fun g' hg' => hnew g' (List.mem_cons_of_mem _ hg')) x hx
        refine foldl_dictInsert_keys P
          (fun b => if nGroups == 1 then b else b ++ "_" ++ interval)
          (_response_to_frames agg) df hdf ?_
        intro bf hbf
        exact hnew (interval, ids) (List.mem_cons_self _ _) bf.1
          (response_to_frames_keys agg bf hbf)

theorem mem_of_mem_mergedPayloads (trace : List ApiRequest) (pl : MergedPayload)
    (h : pl ∈ mergedPayloads trace) : ApiRequest.merged pl ∈ trace := by
  simp only [mergedPayloads, List.mem_filterMap] at h
  obtain ⟨r, hr, hf⟩ := h
  cases r with
  | catalog c => simp at hf
  | merged pl' =>
    simp only [Option.some.injEq] at hf
    rw [← hf]
    exact hr

theorem mergedPayloads_cons_catalog (cp : CatalogPayload) (t : List ApiRequest) :
    mergedPayloads (.catalog cp :: t) = mergedPayloads t := by
  simp [mergedPayloads]

theorem mergedPayloads_flatten_map (p : FetchParams) :
    ∀ groups : List (String × List String),
      mergedPayloads
          ((groups.map fun g => (payloadList p g).map ApiRequest.merged).flatten) =
        (groups.map (payloadList p)).flatten := by
  intro groups
  induction groups with
  | nil => simp [mergedPayloads]
  | cons g rest ih =>
    simp only [List.map_cons, List.flatten_cons, mergedPayloads, List.filterMap_append]
    rw [List.filterMap_map]
    simp only [mergedPayloads] at ih
    rw [ih]
    have h : List.filterMap
        ((fun r => match r with
          | ApiRequest.merged payload => some payload
          | ApiRequest.catalog _ => none) ∘ ApiRequest.merged) (payloadList p g) =
        payloadList p g := by
      rw [show ((fun r => match r with
          | ApiRequest.merged payload => some payload
          | ApiRequest.catalog _ => none) ∘ ApiRequest.merged) = some from rfl]
      exact List.filterMap_some (payloadList p g)
    rw [h]

theorem payloadList_interval (p : FetchParams) (g : String × List String) :
    ∀ pl ∈ payloadList p g, pl.interval = g.1 := by
  intro pl hpl
  unfold payloadList at hpl
  split_ifs at hpl with h
  · simp at hpl
  · rcases List.mem_map.mp hpl with ⟨c, _, rfl⟩
    rfl

theorem filter_flatten_payloads_not_mem (p : FetchParams) (iv : String) :
    ∀ groups : List (String × List String), (∀ g ∈ groups, g.1 ≠ iv) →
      ((groups.map (payloadList p)).flatten.filter fun pl => pl.interval == iv) = [] := by
  intro groups
  induction groups with
  | nil => intro _; simp
  | cons g rest ih =>
    intro hne
    simp only [List.map_cons, List.flatten_cons, List.filter_append]
    rw [ih fun g' hg' => hne g' (List.mem_cons_of_mem _ hg')]
    have hg : (payloadList p g).filter (fun pl => pl.interval == iv) = [] := by
      rw [List.filter_eq_nil_iff]
      intro pl hpl
      simp only [beq_iff_eq]
      rw [payloadList_interval p g pl hpl]
      exact hne g (List.mem_cons_self _ _)
    rw [hg]
    rfl

theorem filter_flatten_payloads_eq (p : FetchParams) :
    ∀ (groups : List (String × List String)) (iv : String) (ids : List String),
      ((groups.map Prod.fst).Nodup) → (iv, ids) ∈ groups →
      ((groups.map (payloadList p)).flatten.filter fun pl => pl.interval == iv) =
        payloadList p (iv, ids) := by
  intro groups
  induction groups with
  | nil => intro iv ids _ hmem; simp at hmem
  | cons g rest ih =>
    intro iv ids hnd hmem
    simp only [List.map_cons, List.flatten_cons, List.filter_append]
    simp only [List.map_cons, List.nodup_cons] at hnd
    rcases List.mem_cons.mp hmem with h | h
    · have h1 : (payloadList p g).filter (fun pl => pl.interval == iv) = payloadList p g := by
        rw [List.filter_eq_self]
        intro pl hpl
        simp only [beq_iff_eq]
        rw [payloadList_interval p g pl hpl, ← h]
      have h2 :
          ((rest.map (payloadList p)).flatten.filter fun pl => pl.interval == iv) = [] := by
        refine filter_flatten_payloads_not_mem p iv rest ?_
        intro g' hg' he
        apply hnd.1
        have hg1 : g.1 = iv := by rw [← h]
        rw [hg1, ← he]
        exact List.mem_map_of_mem Prod.fst hg'
      rw [h1, h2, List.append_nil, ← h]
    · have hgne : g.1 ≠ iv := by
        intro he
        apply hnd.1
        rw [he]
        exact List.mem_map_of_mem Prod.fst h
      have h1 : (payloadList p g).filter (fun pl => pl.interval == iv) = [] := by
        rw [List.filter_eq_nil_iff]
        intro pl hpl
        simp only [beq_iff_eq]
        rw [payloadList_interval p g pl hpl]
        exact hgne
      rw [h1, List.nil_append]
      exact ih iv ids hnd.2 h

theorem leadsWith_append_self : ∀ l t : List Char, leadsWith l (l ++ t) = true := by
  intro l
  induction l with
  | nil => intro t; rfl
  | cons c cs ih => intro t; simp [leadsWith, ih]

theorem strReplaceFuel_append (p0 : Char) (pt rep : List Char) :
    ∀ (pre : List Char) (fuel : Nat), (∀ c ∈ pre, c ≠ p0) → pre.length + 1 ≤ fuel →
      strReplaceFuel (p0 :: pt) rep fuel (pre ++ (p0 :: pt)) = pre ++ rep := by
  intro pre
  induction pre with
  | nil =>
    intro fuel _ hfuel
    cases fuel with
    | zero => omega
    | succ f =>
      have hlw : leadsWith (p0 :: pt) (p0 :: pt) = true := by
        have := leadsWith_append_self (p0 :: pt) []
        rwa [List.append_nil] at this
      simp only [List.nil_append, strReplaceFuel]
      rw [if_pos ⟨List.cons_ne_nil p0 pt, hlw⟩, List.drop_length]
      have hnil : strReplaceFuel (p0 :: pt) rep f [] = [] := by
        cases f <;> rfl
      rw [hnil, List.append_nil]
  | cons c pre' ih =>
    intro fuel hpre hfuel
    cases fuel with
    | zero => simp at hfuel
    | succ f =>
      have hc : c ≠ p0 := hpre c (List.mem_cons_self _ _)
      have hbeq : (p0 == c) = false := beq_eq_false_iff_ne.mpr fun h => hc h.symm
      have hlw : leadsWith (p0 :: pt) (c :: (pre' ++ (p0 :: pt))) = false := by
        simp [leadsWith, hbeq]
      show strReplaceFuel (p0 :: pt) rep (f + 1) (c :: (pre' ++ (p0 :: pt))) =
        c :: (pre' ++ rep)
      rw [show strReplaceFuel (p0 :: pt) rep (f + 1) (c :: (pre' ++ (p0 :: pt))) =
          if (p0 :: pt) ≠ [] ∧ leadsWith (p0 :: pt) (c :: (pre' ++ (p0 :: pt))) = true then
            rep ++ strReplaceFuel (p0 :: pt) rep f
              ((c :: (pre' ++ (p0 :: pt))).drop (p0 :: pt).length)
          else c :: strReplaceFuel (p0 :: pt) rep f (pre' ++ (p0 :: pt)) from rfl]
      rw [if_neg fun hcon => Bool.false_ne_true (hlw ▸ hcon.2)]
      rw [ih f (fun x hx => hpre x (List.mem_cons_of_mem _ hx))
        (by simp only [List.length_cons] at hfuel; omega)]

theorem pyReplace_plus_suffix (pre : String) (hpre : ∀ c ∈ pre.data, c ≠ '+') :
    pyReplace (pre ++ "+00:00") "+00:00" "Z" = pre ++ "Z" := by
  unfold pyReplace
  have h : strReplaceFuel ("+00:00" : String).data ("Z" : String).data
      (pre ++ "+00:00").data.length (pre ++ "+00:00").data = (pre ++ "Z").data := by
    rw [String.data_append, String.data_append]
    rw [show ("+00:00" : String).data = '+' :: ['0', '0', ':', '0', '0'] from rfl,
      show ("Z" : String).data = ['Z'] from rfl]
    exact strReplaceFuel_append '+' ['0', '0', ':', '0', '0'] ['Z'] pre.data _ hpre
      (by simp [List.length_append])
  rw [h]

theorem digitChar_ne_plus_dot (d : Nat) : digitChar d ≠ '+' ∧ digitChar d ≠ '.' := by
  unfold digitChar
  have hlt : d % 10 < 10 := Nat.mod_lt _ (by omega)
  generalize d % 10 = m at hlt ⊢
  interval_cases m <;> exact ⟨by decide, by decide⟩

theorem natChars_digit : ∀ fuel n : Nat, ∀ c ∈ natChars fuel n, ∃ d, c = digitChar d := by
  intro fuel
  induction fuel with
  | zero => intro n c hc; simp [natChars] at hc
  | succ f ih =>
    intro n c hc
    simp only [natChars] at hc
    split_ifs at hc with h
    · simp only [List.mem_singleton] at hc
      exact ⟨n, hc⟩
    · rcases List.mem_append.mp hc with h' | h'
      · exact ih (n / 10) c h'
      · simp only [List.mem_singleton] at h'
        exact ⟨n % 10, h'⟩

theorem natRepr_no_plus_dot (n : Nat) : ∀ c ∈ (natRepr n).data, c ≠ '+' ∧ c ≠ '.' := by
  intro c hc
  obtain ⟨d, rfl⟩ := natChars_digit (n + 1) n c hc
  exact digitChar_ne_plus_dot d

theorem zeroStr_no_plus_dot (l : List Char) (h : ∀ c ∈ l, c = '0') :
    ∀ c ∈ l, c ≠ '+' ∧ c ≠ '.' := by
  intro c hc
  rw [h c hc]
  exact ⟨by decide, by decide⟩

theorem pad2_no_plus_dot (n : Nat) : ∀ c ∈ (pad2 n).data, c ≠ '+' ∧ c ≠ '.' := by
  intro c hc
  unfold pad2 at hc
  rw [String.data_append] at hc
  rcases List.mem_append.mp hc with h | h
  · split_ifs at h
    · exact zeroStr_no_plus_dot _ (by decide) c h
    · simp at h
  · exact natRepr_no_plus_dot n c h

theorem pad4_no_plus_dot (n : Nat) : ∀ c ∈ (pad4 n).data, c ≠ '+' ∧ c ≠ '.' := by
  intro c hc
  unfold pad4 at hc
  rw [String.data_append] at hc
  rcases List.mem_append.mp hc with h | h
  · split_ifs at h <;>
      first
        | exact zeroStr_no_plus_dot _ (by decide) c h
        | simp at h
  · exact natRepr_no_plus_dot n c h

theorem isoSeconds_no_plus_dot (dt : UtcDatetime) :
    ∀ c ∈ (isoSeconds dt).data, c ≠ '+' ∧ c ≠ '.' := by
  intro c hc
  unfold isoSeconds at hc
  simp only [String.data_append, List.mem_append, or_assoc] at hc
  rcases hc with h | h | h | h | h | h | h | h | h | h | h <;>
    first
      | exact pad4_no_plus_dot dt.year c h
      | exact pad2_no_plus_dot _ c h
      | exact (by decide : ∀ x ∈ ("-" : String).data, x ≠ '+' ∧ x ≠ '.') c h
      | exact (by decide : ∀ x ∈ ("T" : String).data, x ≠ '+' ∧ x ≠ '.') c h
      | exact (by decide : ∀ x ∈ (":" : String).data, x ≠ '+' ∧ x ≠ '.') c h

theorem to_iso_eq_isoSeconds (dt : UtcDatetime) : _to_iso dt = isoSeconds dt ++ "Z" := by
  unfold _to_iso isoformatUTC
  rw [if_pos rfl, String.append_empty]
  exact pyReplace_plus_suffix (isoSeconds dt) fun c hc => (isoSeconds_no_plus_dot dt c hc).1

theorem payloadList_markets_flatten (p : FetchParams) (hcs : 1 ≤ p.chunk_size)
    (iv : String) (ids : List String) :
    ((payloadList p (iv, ids)).map (fun pl => pl.markets)).flatten = sortedDedup ids := by
  unfold payloadList
  split_ifs with h
  · simp only [List.map_nil, List.flatten_nil]
    exact (List.isEmpty_iff.mp h).symm
  · simp only [List.map_map]
    rw [show ((fun pl => pl.markets) ∘ buildMergedPayload p (iv, ids).1) =
      (fun c => c) from rfl]
    rw [List.map_id']
    exact chunk_join p.chunk_size hcs _

theorem mem_blocks_options_metrics (p : FetchParams) (iv : String) (c : List String) :
    "options_metrics" ∈ (buildMergedPayload p iv c).blocks ↔
      p.include_options_metrics = true ∧ iv = "1d" := by
  unfold buildMergedPayload
  simp only
  by_cases hp : p.include_probabilities <;>
    by_cases hpr : p.include_prices <;>
      by_cases hf : p.include_options_metrics <;>
        by_cases hiv : iv = "1d" <;>
          simp_all [List.mem_append]

theorem fetch_trace_merged (α : Type) (remote : Remote α) (p : FetchParams)
    (pl : MergedPayload)
    (h : ApiRequest.merged pl ∈ (fetchTimeseries remote p).trace) :
    ∃ cr, remote.catalogResp (buildCatalogPayload p) = .ok cr ∧
      ∃ g ∈ groupMarkets (cr.markets.getD []),
        ∃ c ∈ _chunk (sortedDedup g.2) p.chunk_size,
          pl = buildMergedPayload p g.1 c := by
  unfold fetchTimeseries at h
  by_cases hh : p.horizons.isEmpty = true
  · rw [if_pos hh] at h
    simp at h
  · rw [if_neg hh] at h
    simp only [] at h
    cases hcr : remote.catalogResp (buildCatalogPayload p) with
    | error e =>
      rw [hcr] at h
      simp at h
    | ok cr =>
      rw [hcr] at h
      simp only at h
      by_cases hcat : (cr.markets.getD []).isEmpty = true
      · rw [if_pos hcat] at h
        simp at h
      · rw [if_neg hcat] at h
        refine ⟨cr, rfl, ?_⟩
        cases hri :
            (runIntervals remote p (groupMarkets (cr.markets.getD [])).length
              (groupMarkets (cr.markets.getD [])) [] []).1 with
        | error e =>
          rw [hri] at h
          simp only [List.mem_cons] at h
          rcases h with h | h
          · exact absurd h (by simp)
          · obtain ⟨g, hg, c, hc, heq⟩ :=
              runIntervals_trace_mem remote p _ _ [] [] _ h
            injection heq with heq
            exact ⟨g, hg, c, hc, heq⟩
        | ok rd =>
          rw [hri] at h
          simp only [List.mem_cons] at h
          rcases h with h | h
          · exact absurd h (by simp)
          · obtain ⟨g, hg, c, hc, heq⟩ :=
              runIntervals_trace_mem remote p _ _ [] [] _ h
            injection heq with heq
            exact ⟨g, hg, c, hc, heq⟩

theorem fetch_ok_cases (α : Type) (remote : Remote α) (p : FetchParams)
    (r : TimeseriesResultM α)
    (hok : (fetchTimeseries remote p).result = .ok r) :
    (r.catalog = [] ∧ r.responses = [] ∧ r.dataframes = [] ∧
      (fetchTimeseries remote p).trace = [.catalog (buildCatalogPayload p)]) ∨
    (∃ cr rd, remote.catalogResp (buildCatalogPayload p) = .ok cr ∧
      (cr.markets.getD []).isEmpty = false ∧
      r = ⟨cr.markets.getD [], rd.1, rd.2⟩ ∧
      (runIntervals remote p (groupMarkets (cr.markets.getD [])).length
        (groupMarkets (cr.markets.getD [])) [] []).1 = .ok rd ∧
      (fetchTimeseries remote p).trace =
        .catalog (buildCatalogPayload p) ::
          (runIntervals remote p (groupMarkets (cr.markets.getD [])).length
            (groupMarkets (cr.markets.getD [])) [] []).2) := by
  unfold fetchTimeseries at hok
  by_cases hh : p.horizons.isEmpty = true
  · rw [if_pos hh] at hok
    simp at hok
  · rw [if_neg hh] at hok
    simp only [] at hok
    cases hcr : remote.catalogResp (buildCatalogPayload p) with
    | error e =>
      rw [hcr] at hok
      simp at hok
    | ok cr =>
      rw [hcr] at hok
      simp only [] at hok
      by_cases hcat : (cr.markets.getD []).isEmpty = true
      · rw [if_pos hcat] at hok
        simp only [Except.ok.injEq] at hok
        left
        refine ⟨?_, ?_, ?_, ?_⟩
        · rw [← hok]
        · rw [← hok]
        · rw [← hok]
        · unfold fetchTimeseries
          rw [if_neg hh]
          try simp only []
          rw [hcr]
          try simp only []
          rw [if_pos hcat]
      · rw [if_neg hcat] at hok
        cases hri :
            (runIntervals remote p (groupMarkets (cr.markets.getD [])).length
              (groupMarkets (cr.markets.getD [])) [] []).1 with
        | error e =>
          rw [hri] at hok
          simp at hok
        | ok rd =>
          rw [hri] at hok
          simp only [Except.ok.injEq] at hok
          right
          refine ⟨cr, rd, rfl, by rwa [Bool.not_eq_true] at hcat, hok.symm, hri, ?_⟩
          unfold fetchTimeseries
          rw [if_neg hh]
          try simp only []
          rw [hcr]
          try simp only []
          rw [if_neg hcat]
          try simp only []
          rw [hri]

/-- C3: for every pair of responses where the destination is non-empty,
each of the three known blocks present in both has, after
`_merge_responses`, the destination's columns and the destination's rows
followed by the source's rows; in particular one row each yields exactly
two rows, destination's first. -/
theorem claim_C3_merge_appends_rows (α : Type) (d s : MergedResponse α)
    (hne : isEmptyResponse d = false) :
    (∀ db sb, d.probabilities = some db → s.probabilities = some sb →
      (_merge_responses d s).probabilities = some ⟨db.columns, db.rows ++ sb.rows⟩) ∧
    (∀ db sb, d.prices = some db → s.prices = some sb →
      (_merge_responses d s).prices = some ⟨db.columns, db.rows ++ sb.rows⟩) ∧
    (∀ db sb, d.options_metrics = some db → s.options_metrics = some sb →
      (_merge_responses d s).options_metrics = some ⟨db.columns, db.rows ++ sb.rows⟩) := by
  have hcond : ¬ isEmptyResponse d = true := by rw [hne]; exact Bool.false_ne_true
  refine ⟨?_, ?_, ?_⟩ <;> intro db sb hd hs <;>
    simp [_merge_responses, if_neg hcond, mergeBlock, hd, hs]

/-- Witness for C3: merging two one-row probabilities blocks yields the
two rows in destination-then-source order. -/
theorem claim_C3_witness :
    isEmptyResponse (⟨some ⟨["c"], [1]⟩, none, none, none, []⟩ : MergedResponse Nat) = false ∧
      (_merge_responses (⟨some ⟨["c"], [1]⟩, none, none, none, []⟩ : MergedResponse Nat)
          ⟨some ⟨["c"], [2]⟩, none, none, none, []⟩).probabilities =
        some ⟨["c"], [1, 2]⟩ :=
  ⟨rfl,
    (claim_C3_merge_appends_rows Nat ⟨some ⟨["c"], [1]⟩, none, none, none, []⟩
        ⟨some ⟨["c"], [2]⟩, none, none, none, []⟩ rfl).1
      ⟨["c"], [1]⟩ ⟨["c"], [2]⟩ rfl rfl⟩

/-- C5: a response with a success status whose decoded body carries an
`error` field makes `_post` raise the API error instead of returning the
body; the message comes from `error.message` for a mapping with that key,
and from the stringified error value otherwise. -/
theorem claim_C5_error_envelope_on_success (r : HttpResponse)
    (fs : List (String × JsonValue)) (e : JsonValue)
    (h2xx : 200 ≤ r.status ∧ r.status < 300)
    (hbody : r.body = some (.obj fs))
    (herr : dictGet fs "error" = some e) :
    _post r = .error (.api ("API returned error: " ++ apiErrorMessage e)) ∧
      (∀ efs m, e = .obj efs → dictGet efs "message" = some m →
        apiErrorMessage e = pyStr m) ∧
      ((∀ efs, e ≠ .obj efs) → apiErrorMessage e = pyStr e) := by
  refine ⟨?_, ?_, ?_⟩
  · have hne : ¬ (400 ≤ r.status ∧ r.status < 600) := by omega
    simp only [_post, hbody, pyContains, herr, Option.isSome_some, hne, if_false, ite_false]
  · intro efs m he hm
    subst he
    simp [apiErrorMessage, hm]
  · intro hnot
    cases e with
    | obj efs => exact absurd rfl (hnot efs)
    | null => rfl
    | bool b => rfl
    | num i => rfl
    | str s => rfl
    | arr xs => rfl

/-- Witness for C5 at a concrete 200 response whose error envelope is the
bare string "boom". -/
theorem claim_C5_witness :
    _post ⟨200, some (.obj [("error", .str "boom")]), "raw"⟩ =
        .error (.api ("API returned error: " ++ apiErrorMessage (.str "boom"))) ∧
      apiErrorMessage (.str "boom") = pyStr (.str "boom") :=
  ⟨(claim_C5_error_envelope_on_success ⟨200, some (.obj [("error", .str "boom")]), "raw"⟩
      [("error", .str "boom")] (.str "boom") (by decide) rfl rfl).1,
    (claim_C5_error_envelope_on_success ⟨200, some (.obj [("error", .str "boom")]), "raw"⟩
      [("error", .str "boom")] (.str "boom") (by decide) rfl rfl).2.2
      fun efs h => JsonValue.noConfusion h⟩

/-- C6: `_chunk` yields the documented concrete example, no chunks on an
empty sequence, and a single whole-sequence chunk when the size bounds the
length. -/
theorem claim_C6_chunk_spec (α : Type) :
    _chunk ["a", "b", "c", "d", "e"] 2 = [["a", "b"], ["c", "d"], ["e"]] ∧
      (∀ size : Nat, 1 ≤ size → _chunk ([] : List α) size = []) ∧
      (∀ (l : List α) (size : Nat), l ≠ [] → l.length ≤ size → _chunk l size = [l]) :=
  ⟨by decide, fun size _ => chunk_nil size,
    fun l size hl hlen => chunk_single size l hl hlen⟩

/-- Witness for C6 on concrete empty and oversized-chunk inputs. -/
theorem claim_C6_witness :
    _chunk ([] : List Nat) 3 = [] ∧ _chunk [7, 8] 5 = [[7, 8]] :=
  ⟨(claim_C6_chunk_spec Nat).2.1 3 (by omega),
    (claim_C6_chunk_spec Nat).2.2 [7, 8] 5 (by decide) (by decide)⟩

/-- C7: merging any source into an empty destination returns the source
itself. -/
theorem claim_C7_merge_empty_destination (α : Type) (d s : MergedResponse α)
    (he : isEmptyResponse d = true) : _merge_responses d s = s := by
  unfold _merge_responses
  rw [if_pos he]

/-- Witness for C7 at a concrete empty destination and non-trivial source. -/
theorem claim_C7_witness :
    _merge_responses (⟨none, none, none, none, []⟩ : MergedResponse Nat)
        ⟨some ⟨["c"], [5]⟩, none, none, some .null, []⟩ =
      ⟨some ⟨["c"], [5]⟩, none, none, some .null, []⟩ :=
  claim_C7_merge_empty_destination Nat ⟨none, none, none, none, []⟩
    ⟨some ⟨["c"], [5]⟩, none, none, some .null, []⟩ rfl

/-- C9: `_to_iso` of any datetime whose UTC value has second precision
fields 2024-01-01 12:00:00 is exactly the documented string, and in general
`_to_iso` is the second-precision ISO form with a literal Z suffix and no
plus or dot character (hence neither a `+00:00` offset nor microseconds). -/
theorem claim_C9_to_iso_format :
    (∀ us : Nat, _to_iso ⟨2024, 1, 1, 12, 0, 0, us⟩ = "2024-01-01T12:00:00Z") ∧
      ∀ dt : UtcDatetime,
        _to_iso dt = isoSeconds dt ++ "Z" ∧
          ∀ c ∈ (_to_iso dt).data, c ≠ '+' ∧ c ≠ '.' := by
  constructor
  · intro us
    rw [to_iso_eq_isoSeconds, show isoSeconds ⟨2024, 1, 1, 12, 0, 0, us⟩ =
      isoSeconds ⟨2024, 1, 1, 12, 0, 0, 0⟩ from rfl]
    decide
  · intro dt
    refine ⟨to_iso_eq_isoSeconds dt, ?_⟩
    intro c hc
    rw [to_iso_eq_isoSeconds, String.data_append] at hc
    rcases List.mem_append.mp hc with h | h
    · exact isoSeconds_no_plus_dot dt c h
    · exact (by decide : ∀ x ∈ ("Z" : String).data, x ≠ '+' ∧ x ≠ '.') c h

/-- Witness for C9 at concrete microsecond-bearing datetimes. -/
theorem claim_C9_witness :
    _to_iso ⟨2024, 1, 1, 12, 0, 0, 999999⟩ = "2024-01-01T12:00:00Z" ∧
      '+' ∉ (_to_iso ⟨2025, 3, 7, 4, 5, 6, 1⟩).data :=
  ⟨claim_C9_to_iso_format.1 999999,
    fun h => ((claim_C9_to_iso_format.2 ⟨2025, 3, 7, 4, 5, 6, 1⟩).2 '+' h).1 rfl⟩

/-- C1: every `api_v1_merged` request issued by `fetch_timeseries` carries
`options_metrics` in its blocks exactly when the flag is set and the
chunk's interval equals the fixed value "1d"; since every issued interval
comes from the static horizon map, whose values are 5m/30m/1h/4h, no
issued request ever carries the block. -/
theorem claim_C1_options_metrics_inert (α : Type) (remote : Remote α) (p : FetchParams)
    (pl : MergedPayload)
    (hpl : pl ∈ mergedPayloads (fetchTimeseries remote p).trace) :
    pl.interval ∈ HORIZON_INTERVAL_MAP.map Prod.snd ∧
      ("options_metrics" ∈ pl.blocks ↔
        p.include_options_metrics = true ∧ pl.interval = "1d") ∧
      "options_metrics" ∉ pl.blocks := by
  obtain ⟨cr, hcr, g, hg, c, hc, rfl⟩ :=
    fetch_trace_merged α remote p pl (mem_of_mem_mergedPayloads _ pl hpl)
  have hint : g.1 ∈ HORIZON_INTERVAL_MAP.map Prod.snd :=
    groupMarkets_keys_mem _ g hg
  have hiff := mem_blocks_options_metrics p g.1 c
  have hneq : g.1 ≠ "1d" := by
    intro h
    rw [h] at hint
    exact absurd hint (by decide)
  exact ⟨hint, hiff, fun hmem' => hneq (hiff.mp hmem').2⟩

/-- Witness for C1: a concrete pipeline run with the options-metrics flag
set issues a 5m request that still lacks the block. -/
theorem claim_C1_witness :
    buildMergedPayload sampleParams "5m" ["m1"] ∈
        mergedPayloads (fetchTimeseries sampleRemote sampleParams).trace ∧
      "options_metrics" ∉ (buildMergedPayload sampleParams "5m" ["m1"]).blocks :=
  ⟨by decide,
    (claim_C1_options_metrics_inert Nat sampleRemote sampleParams
      (buildMergedPayload sampleParams "5m" ["m1"]) (by decide)).2.2⟩

/-- C2: a catalog lookup matching no markets short-circuits
`fetch_timeseries` to an empty result, with the catalog request as the
only network call. -/
theorem claim_C2_empty_catalog_short_circuit (α : Type) (remote : Remote α)
    (p : FetchParams) (hhor : p.horizons ≠ [])
    (cr : CatalogResponse)
    (hcr : remote.catalogResp (buildCatalogPayload p) = .ok cr)
    (hempty : cr.markets.getD [] = []) :
    (fetchTimeseries remote p).result = .ok ⟨[], [], []⟩ ∧
      (fetchTimeseries remote p).trace = [.catalog (buildCatalogPayload p)] := by
  have hh : ¬ p.horizons.isEmpty = true := fun h => hhor (List.isEmpty_iff.mp h)
  unfold fetchTimeseries
  rw [if_neg hh]
  try simp only []
  rw [hcr]
  try simp only []
  rw [hempty]
  exact ⟨rfl, rfl⟩

/-- Witness for C2 against the empty-catalog oracle. -/
theorem claim_C2_witness :
    (fetchTimeseries emptyCatalogRemote sampleParams).result = .ok ⟨[], [], []⟩ ∧
      (fetchTimeseries emptyCatalogRemote sampleParams).trace =
        [.catalog (buildCatalogPayload sampleParams)] :=
  claim_C2_empty_catalog_short_circuit Nat emptyCatalogRemote sampleParams
    (by decide) ⟨some []⟩ rfl rfl

/-- C4: an empty horizons list raises the validation error before any
request is issued. -/
theorem claim_C4_empty_horizons_validation (α : Type) (remote : Remote α)
    (p : FetchParams) (hhor : p.horizons = []) :
    (fetchTimeseries remote p).result =
        .error (.validation "At least one horizon must be provided") ∧
      (fetchTimeseries remote p).trace = [] := by
  unfold fetchTimeseries
  rw [if_pos (by rw [hhor]; rfl)]
  exact ⟨rfl, rfl⟩

/-- Witness for C4 at concrete arguments with no horizons. -/
theorem claim_C4_witness :
    (fetchTimeseries emptyCatalogRemote { sampleParams with horizons := [] }).result =
        .error (.validation "At least one horizon must be provided") ∧
      (fetchTimeseries emptyCatalogRemote { sampleParams with horizons := [] }).trace =
        [] :=
  claim_C4_empty_horizons_validation Nat emptyCatalogRemote
    { sampleParams with horizons := [] } rfl

/-- C8: every key of the returned dataframes is a bare block name when the
grouping holds a single interval, and `{block}_{interval}` with an
interval of the grouping otherwise. -/
theorem claim_C8_dataframe_keys (α : Type) (remote : Remote α) (p : FetchParams)
    (r : TimeseriesResultM α)
    (hok : (fetchTimeseries remote p).result = .ok r) :
    ∀ key ∈ r.dataframes.map Prod.fst,
      ∃ block ∈ (["probabilities", "prices", "options_metrics"] : List String),
        ((groupMarkets r.catalog).length = 1 → key = block) ∧
        ((groupMarkets r.catalog).length ≠ 1 →
          ∃ iv ∈ (groupMarkets r.catalog).map Prod.fst, key = block ++ "_" ++ iv) := by
  rcases fetch_ok_cases α remote p r hok with
    ⟨hc0, hresp, hdf, htr⟩ | ⟨cr, rd, hcr, hcat, hr, hri, htr⟩
  · intro key hkey
    rw [hdf] at hkey
    simp at hkey
  · intro key hkey
    have hdf : r.dataframes = rd.2 := by rw [hr]
    have hcatr : r.catalog = cr.markets.getD [] := by rw [hr]
    rw [hdf] at hkey
    rw [hcatr]
    refine runIntervals_keys remote p (groupMarkets (cr.markets.getD [])).length
      (fun key =>
        ∃ block ∈ (["probabilities", "prices", "options_metrics"] : List String),
          ((groupMarkets (cr.markets.getD [])).length = 1 → key = block) ∧
          ((groupMarkets (cr.markets.getD [])).length ≠ 1 →
            ∃ iv ∈ (groupMarkets (cr.markets.getD [])).map Prod.fst,
              key = block ++ "_" ++ iv))
      (groupMarkets (cr.markets.getD [])) [] [] rd hri (by simp) ?_ key hkey
    intro g hg b hb
    by_cases hn : (groupMarkets (cr.markets.getD [])).length = 1
    · have hbeq : ((groupMarkets (cr.markets.getD [])).length == 1) = true := by
        simp [hn]
      simp only [hbeq, if_true, ite_true]
      exact ⟨b, hb, fun _ => rfl, fun hn' => absurd hn hn'⟩
    · have hbeq : ((groupMarkets (cr.markets.getD [])).length == 1) = false := by
        simp [hn]
      simp only [hbeq, if_false, ite_false, Bool.false_eq_true]
      exact ⟨b, hb, fun h1 => absurd h1 hn,
        fun _ => ⟨g.1, List.mem_map_of_mem Prod.fst hg, rfl⟩⟩

/-- Witness for C8: the single-interval sample run keys its frame by the
bare block name. -/
theorem claim_C8_witness :
    ∃ block ∈ (["probabilities", "prices", "options_metrics"] : List String),
      ((groupMarkets ([⟨some "daily", some "m1"⟩, ⟨some "daily", some "m2"⟩] :
          List CatalogEntry)).length = 1 → "probabilities" = block) ∧
      ((groupMarkets ([⟨some "daily", some "m1"⟩, ⟨some "daily", some "m2"⟩] :
          List CatalogEntry)).length ≠ 1 →
        ∃ iv ∈ (groupMarkets ([⟨some "daily", some "m1"⟩,
            ⟨some "daily", some "m2"⟩] : List CatalogEntry)).map Prod.fst,
          "probabilities" = block ++ "_" ++ iv) :=
  claim_C8_dataframe_keys Nat sampleRemote sampleParams
    ⟨[⟨some "daily", some "m1"⟩, ⟨some "daily", some "m2"⟩],
      [("5m", ⟨some ⟨["t"], [0, 0]⟩, none, none, none, []⟩)],
      [("probabilities", [0, 0])]⟩
    rfl "probabilities" (by decide)

/-- C10: with a positive chunk size, every issued `api_v1_merged` payload
carries a non-empty, duplicate-free, ascending markets list of length at
most the chunk size, and on a successful run the concatenation of the
markets lists of one interval's requests, in issue order, is exactly the
sorted deduplication of that interval's collected ids. -/
theorem claim_C10_merged_request_markets (α : Type) (remote : Remote α)
    (p : FetchParams) (hcs : 1 ≤ p.chunk_size) :
    (∀ pl ∈ mergedPayloads (fetchTimeseries remote p).trace,
      pl.markets ≠ [] ∧ pl.markets.Nodup ∧
        pl.markets.Pairwise (fun a b => pyStrLe a b = true) ∧
        pl.markets.length ≤ p.chunk_size) ∧
      ∀ r, (fetchTimeseries remote p).result = .ok r →
        ∀ g ∈ groupMarkets r.catalog,
          (((mergedPayloads (fetchTimeseries remote p).trace).filter
              fun pl => pl.interval == g.1).map fun pl => pl.markets).flatten =
            sortedDedup g.2 := by
  constructor
  · intro pl hpl
    obtain ⟨cr, hcr, g, hg, c, hc, rfl⟩ :=
      fetch_trace_merged α remote p pl (mem_of_mem_mergedPayloads _ pl hpl)
    have hsub := chunk_mem_sublist p.chunk_size hcs _ c hc
    exact ⟨chunk_mem_ne_nil p.chunk_size hcs _ c hc,
      (sortedDedup_nodup g.2).sublist hsub,
      (sortedDedup_sorted g.2).sublist hsub,
      chunk_mem_length p.chunk_size hcs _ c hc⟩
  · intro r hok g hg
    rcases fetch_ok_cases α remote p r hok with
      ⟨hc0, _, _, htr⟩ | ⟨cr, rd, hcr, hcat, hr, hri, htr⟩
    · rw [hc0] at hg
      simp [groupMarkets] at hg
    · have hcatr : r.catalog = cr.markets.getD [] := by rw [hr]
      rw [hcatr] at hg
      obtain ⟨iv, ids⟩ := g
      rw [htr, mergedPayloads_cons_catalog,
        runIntervals_ok_trace remote p _ _ [] [] rd hri,
        mergedPayloads_flatten_map p]
      rw [show ((iv, ids).1 : String) = iv from rfl,
        show ((iv, ids).2 : List String) = ids from rfl]
      rw [filter_flatten_payloads_eq p _ iv ids (groupMarkets_keys_nodup _) hg]
      exact payloadList_markets_flatten p hcs iv ids

/-- Witness for C10: the sample run with chunk size 1 issues singleton
requests whose concatenation over the 5m interval is the sorted
deduplicated id list. -/
theorem claim_C10_witness :
    (buildMergedPayload sampleParams "5m" ["m1"]).markets.length ≤
        sampleParams.chunk_size ∧
      (((mergedPayloads (fetchTimeseries sampleRemote sampleParams).trace).filter
          fun pl => pl.interval == "5m").map fun pl => pl.markets).flatten =
        sortedDedup ["m1", "m2"] :=
  ⟨((claim_C10_merged_request_markets Nat sampleRemote sampleParams (by decide)).1
      (buildMergedPayload sampleParams "5m" ["m1"]) (by decide)).2.2.2,
    (claim_C10_merged_request_markets Nat sampleRemote sampleParams (by decide)).2
      ⟨[⟨some "daily", some "m1"⟩, ⟨some "daily", some "m2"⟩],
        [("5m", ⟨some ⟨["t"], [0, 0]⟩, none, none, none, []⟩)],
        [("probabilities", [0, 0])]⟩ rfl ("5m", ["m1", "m2"]) (by decide)⟩

end Polybridge
